import Mathlib

/-!
Shallow embedding of the constraint-evaluation and solver-orchestration
layer of the scikit-motionplan repository (skmp/constraint.py and
skmp/solver/interface.py).  Real-valued numpy arrays are modelled as
lists of rationals; an array of shape n x d is a list of n rows.
-/

namespace Skmp

abbrev Vec := List ℚ

abbrev Mat := List (List ℚ)

/-- Result of the jacobian slot of an `_evaluate` call: either the
single-NaN placeholder produced by `AbstractConst.dummy_jacobian`
(`np.array([[np.nan]])` in skmp/constraint.py line 38), or an actual
`n x m x d` jacobian array. -/
inductive JacRet where
  | dummy : JacRet
  | jacs : List (List (List ℚ)) → JacRet
deriving DecidableEq, Repr

/-- Row-major reshape of a flat list into rows of length `d`
(numpy reshape with the row count inferred). -/
def chunkList {α : Type} (d : Nat) (l : List α) : List (List α) :=
  (List.range (if d = 0 then 0 else (l.length + d - 1) / d)).map
    (fun i => (l.drop (i * d)).take d)

/-- The d x d identity matrix (`np.eye`). -/
def eye (d : Nat) : Mat :=
  (List.range d).map (fun i => (List.range d).map (fun j => if i = j then (1 : ℚ) else 0))

/-- Componentwise difference of two equal-length vectors. -/
def vsub (a b : Vec) : Vec := List.zipWith (fun x y => x - y) a b

/-- Inner product of two equal-length vectors (`vals.dot(vals)`). -/
def dot (a b : Vec) : ℚ := (List.zipWith (fun x y => x * y) a b).sum

/-- skmp/constraint.py class BoxConst: the box-limit inequality
constraint, holding lower and upper bounds. -/
structure BoxConst where
  lb : Vec
  ub : Vec

/-- skmp/constraint.py lines 172-182, BoxConst._evaluate.  The source
flattens `qs - lb` and `ub - qs` (row-major over the whole batch),
concatenates the two flat vectors and reshapes to `(n_point, -1)`;
the jacobian per configuration is `[eye(dim); -eye(dim)]`. -/
def BoxConst._evaluate (c : BoxConst) (qs : Mat) (with_jacobian : Bool) : Mat × JacRet :=
  let nPoint := qs.length
  let dim := (qs.headD []).length
  let fLower := (qs.map (fun q => vsub q c.lb)).flatten
  let fUpper := (qs.map (fun q => vsub c.ub q)).flatten
  let cols := (fLower.length + fUpper.length) / nPoint
  let f := chunkList cols (fLower ++ fUpper)
  if with_jacobian then
    let jacSingle := eye dim ++ (eye dim).map (fun row => row.map (fun x => -x))
    (f, JacRet.jacs (qs.map (fun _ => jacSingle)))
  else
    (f, JacRet.dummy)

/-- The residual layout claim C1 and the specification describe for
BoxConst: row i of the residual is the lower margins of configuration i
followed by its upper margins. -/
def boxResidualSpec (c : BoxConst) (qs : Mat) : Mat :=
  qs.map (fun q => vsub q c.lb ++ vsub c.ub q)

/-- C1: for a single configuration the code agrees with the claimed
layout (the spec example at q=[0,0], lb=[-1,-1], ub=[1,1] holds, with
jacobian [I; -I]), but for a batch of two configurations the code
flattens all lower margins of the whole batch before all upper margins,
so row i of the returned residual is not `[Q_i - lb; ub - Q_i]`:
at lb=[0,0], ub=[2,2], Q=[[0,0],[1,1]] the code returns
[[0,0,1,1],[2,2,1,1]] while the claimed layout is [[0,0,2,2],[1,1,1,1]].
The returned jacobian is the per-configuration [I; -I] of the claimed
layout, so the code contradicts its own jacobian. -/
theorem C1_box_batch_residual_scrambled :
    (BoxConst._evaluate ⟨[-1,-1], [1,1]⟩ [[0,0]] true).1 = [[1,1,1,1]]
    ∧ (BoxConst._evaluate ⟨[-1,-1], [1,1]⟩ [[0,0]] true).2
        = JacRet.jacs [[[1,0],[0,1],[-1,0],[0,-1]]]
    ∧ (BoxConst._evaluate ⟨[0,0], [2,2]⟩ [[0,0],[1,1]] true).1
        = [[0,0,1,1],[2,2,1,1]]
    ∧ boxResidualSpec ⟨[0,0], [2,2]⟩ [[0,0],[1,1]]
        = [[0,0,2,2],[1,1,1,1]]
    ∧ (BoxConst._evaluate ⟨[0,0], [2,2]⟩ [[0,0],[1,1]] true).1
        ≠ boxResidualSpec ⟨[0,0], [2,2]⟩ [[0,0],[1,1]]
    ∧ (BoxConst._evaluate ⟨[0,0], [2,2]⟩ [[0,0],[1,1]] true).2
        = JacRet.jacs [[[1,0],[0,1],[-1,0],[0,-1]], [[1,0],[0,1],[-1,0],[0,-1]]] := by
  norm_num [BoxConst._evaluate, boxResidualSpec, chunkList, eye, vsub, List.range_succ]

/-- First index of the minimum of a list (`np.argmin`): ties are broken
in favour of the earliest occurrence. -/
def argminIdx {α : Type} [LinearOrder α] : List α → ℕ
  | [] => 0
  | x :: rest =>
    if rest = [] then 0
    else if x ≤ rest.getD (argminIdx rest) x then 0 else argminIdx rest + 1

/-- skmp/constraint.py lines 20-61, class AbstractConst: every constraint
carries a `reflect_robot_flag` readiness bit, a concrete type name (used
in the state-error message) and the variant-specific `_evaluate` body. -/
structure GatedConst where
  typeName : String
  reflect_robot_flag : Bool
  evalImpl : Mat → Bool → Mat × JacRet

/-- skmp/constraint.py lines 23-30, AbstractConst.evaluate: raises a
RuntimeError naming the concrete type when the model has not been
reflected, and otherwise dispatches to the variant `_evaluate`. -/
def GatedConst.evaluate (c : GatedConst) (qs : Mat) (with_jacobian : Bool) :
    Except String (Mat × JacRet) :=
  if c.reflect_robot_flag = false then
    Except.error (c.typeName ++ ": you need to call reflect_skrobot_model beforehand")
  else
    Except.ok (c.evalImpl qs with_jacobian)

/-- skmp/constraint.py lines 44-51, AbstractConst.reflect_skrobot_model:
propagates external state and sets the readiness flag. -/
def GatedConst.reflect_skrobot_model (c : GatedConst) : GatedConst :=
  { c with reflect_robot_flag := true }

/-- Row-wise concatenation of a list of 2-D arrays (`np.hstack` on
matrices, `np.concatenate(..., axis=1)` on 3-D arrays) in the aligned
case: numpy raises when the row counts of its inputs differ, and that
shape check is performed by the caller (_CompositeConst._evaluate)
before this aligned concatenation is taken. -/
def concatRows {β : Type} : List (List (List β)) → List (List β)
  | [] => []
  | [b] => b
  | b :: rest => List.zipWith (fun r s => r ++ s) b (concatRows rest)

/-- Evaluate every member of a composite in order, propagating the
reflection-gate error of any member (the loop of
_CompositeConst._evaluate, skmp/constraint.py lines 104-107). -/
def _CompositeConst.evaluateMembers (qs : Mat) (with_jacobian : Bool) :
    List GatedConst → Except String (List (Mat × JacRet))
  | [] => Except.ok []
  | m :: rest => do
    let r ← GatedConst.evaluate m qs with_jacobian
    let rs ← _CompositeConst.evaluateMembers qs with_jacobian rest
    Except.ok (r :: rs)

/-- Extract the jacobian arrays of the member results; a member that
returned the 1 x 1 dummy placeholder makes `np.concatenate` fail on a
shape mismatch, modelled as an error. -/
def extractJacs : List (Mat × JacRet) → Except String (List (List (List (List ℚ))))
  | [] => Except.ok []
  | (_, JacRet.dummy) :: _ => Except.error "all the input array dimensions must match"
  | (_, JacRet.jacs j) :: rest => do
    let js ← extractJacs rest
    Except.ok (j :: js)

/-- skmp/constraint.py lines 100-115, _CompositeConst._evaluate:
evaluates each member, horizontally stacks the residuals, and (when
with_jacobian) concatenates the jacobians along axis 1.  `np.hstack` on
an empty list raises, modelled as an error, and both `np.hstack` and
`np.concatenate` raise when the row counts of their inputs differ
(as happens with a ReducedCollisionFreeConst member at with_jacobian
false on a batch of two or more configurations), also modelled as an
error; numpy arrays are rectangular, so the remaining axes of the
source arrays agree by construction. -/
def _CompositeConst._evaluate (members : List GatedConst) (qs : Mat)
    (with_jacobian : Bool) : Except String (Mat × JacRet) := do
  let rs ← _CompositeConst.evaluateMembers qs with_jacobian members
  if rs = [] then
    Except.error "need at least one array to concatenate"
  else if ¬ (rs.map Prod.fst).all
      (fun m => m.length = ((rs.map Prod.fst).headD []).length) then
    Except.error
      "all the input array dimensions except for the concatenation axis must match exactly"
  else
    let F := concatRows (rs.map Prod.fst)
    if with_jacobian then do
      let js ← extractJacs rs
      if ¬ js.all (fun j => j.length = (js.headD []).length) then
        Except.error
          "all the input array dimensions except for the concatenation axis must match exactly"
      else
        Except.ok (F, JacRet.jacs (concatRows js))
    else
      Except.ok (F, JacRet.dummy)

/-- The jacobian array held by a `JacRet`, empty for the placeholder. -/
def jacArrOf : JacRet → List (List (List ℚ))
  | JacRet.dummy => []
  | JacRet.jacs j => j

theorem exceptOkBind {ε α β : Type} (x : α) (f : α → Except ε β) :
    (Except.ok x : Except ε α) >>= f = f x := rfl

/-- C8: a constraint whose reflection step has not run rejects
`evaluate` with a state error naming the concrete constraint type and
computes no residual, and after `reflect_skrobot_model` evaluation
proceeds to the variant-specific `_evaluate`. -/
theorem C8_reflection_gate (c : GatedConst) (qs : Mat) (with_jacobian : Bool) :
    (c.reflect_robot_flag = false →
      c.evaluate qs with_jacobian =
        Except.error (c.typeName ++ ": you need to call reflect_skrobot_model beforehand"))
    ∧ (c.reflect_skrobot_model).evaluate qs with_jacobian =
        Except.ok (c.evalImpl qs with_jacobian) := by
  constructor
  · intro h
    simp [GatedConst.evaluate, h]
  · simp [GatedConst.evaluate, GatedConst.reflect_skrobot_model]

/-- Concrete instantiation of C8 at a fresh unreflected constraint. -/
theorem C8_reflection_gate_witness :
    GatedConst.evaluate ⟨"BoxConst", false, fun _ _ => ([], JacRet.dummy)⟩ [] false =
      Except.error "BoxConst: you need to call reflect_skrobot_model beforehand"
    ∧ GatedConst.evaluate
        (GatedConst.reflect_skrobot_model ⟨"BoxConst", false, fun _ _ => ([], JacRet.dummy)⟩)
        [] false = Except.ok ([], JacRet.dummy) := by
  have h := C8_reflection_gate ⟨"BoxConst", false, fun _ _ => ([], JacRet.dummy)⟩ [] false
  exact ⟨h.1 rfl, h.2⟩

theorem getD_zipWith_append {β : Type} :
    ∀ (a b : List (List β)) (i : ℕ), i < a.length → i < b.length →
      (List.zipWith (fun r s => r ++ s) a b).getD i [] = a.getD i [] ++ b.getD i []
  | [], _, i, ha, _ => by simp at ha
  | _ :: _, [], i, _, hb => by simp at hb
  | r :: a, s :: b, 0, _, _ => by simp
  | r :: a, s :: b, i + 1, ha, hb => by
    simpa using getD_zipWith_append a b i (by simpa using ha) (by simpa using hb)

theorem concatRows_length {β : Type} (n : ℕ) :
    ∀ mats : List (List (List β)), mats ≠ [] → (∀ m ∈ mats, m.length = n) →
      (concatRows mats).length = n
  | [], hne, _ => absurd rfl hne
  | [b], _, h => by simpa [concatRows] using h b (by simp)
  | b :: r :: rest, _, h => by
    have hrec := concatRows_length n (r :: rest) (by simp) (fun m hm => h m (by simp [hm]))
    have hb : b.length = n := h b (by simp)
    simp [concatRows, hb, hrec]

theorem concatRows_getD {β : Type} (n : ℕ) :
    ∀ (mats : List (List (List β))) (i : ℕ), i < n → (∀ m ∈ mats, m.length = n) →
      (concatRows mats).getD i [] = (mats.map (fun m => m.getD i [])).flatten
  | [], i, _, _ => by simp [concatRows]
  | [b], i, _, _ => by simp [concatRows]
  | b :: r :: rest, i, hi, h => by
    have hrec := concatRows_getD n (r :: rest) i hi (fun m hm => h m (by simp [hm]))
    have hb : i < b.length := by rw [h b (by simp)]; exact hi
    have hlen : i < (concatRows (r :: rest)).length := by
      rw [concatRows_length n (r :: rest) (by simp) (fun m hm => h m (by simp [hm]))]
      exact hi
    calc (concatRows (b :: r :: rest)).getD i []
        = b.getD i [] ++ (concatRows (r :: rest)).getD i [] := by
          simpa [concatRows] using
            getD_zipWith_append b (concatRows (r :: rest)) i hb hlen
      _ = b.getD i [] ++ (List.map (fun m => m.getD i []) (r :: rest)).flatten := by
          rw [hrec]
      _ = _ := by simp

theorem evaluateMembers_of_flags (qs : Mat) (with_jacobian : Bool) :
    ∀ members : List GatedConst, (∀ m ∈ members, m.reflect_robot_flag = true) →
      _CompositeConst.evaluateMembers qs with_jacobian members =
        Except.ok (members.map (fun m => m.evalImpl qs with_jacobian))
  | [], _ => rfl
  | m :: rest, h => by
    have hm : m.reflect_robot_flag = true := h m (by simp)
    have hrec := evaluateMembers_of_flags qs with_jacobian rest
      (fun x hx => h x (by simp [hx]))
    simp only [_CompositeConst.evaluateMembers, GatedConst.evaluate, hm, hrec,
      Bool.true_eq_false, if_false, List.map_cons]
    rfl

theorem extractJacs_of_jacs :
    ∀ rs : List (Mat × JacRet), (∀ r ∈ rs, ∃ j, r.2 = JacRet.jacs j) →
      extractJacs rs = Except.ok (rs.map (fun r => jacArrOf r.2))
  | [], _ => rfl
  | r :: rest, h => by
    obtain ⟨j, hj⟩ := h r (by simp)
    have hrec := extractJacs_of_jacs rest (fun x hx => h x (by simp [hx]))
    obtain ⟨F, jr⟩ := r
    simp only at hj
    subst hj
    simp only [extractJacs, hrec, jacArrOf, List.map_cons]
    rfl

theorem all_length_eq_headD {β : Type} (L : List (List β)) (n : ℕ)
    (h : ∀ x ∈ L, x.length = n) (hne : L ≠ []) :
    L.all (fun m => m.length = (L.headD []).length) = true := by
  cases L with
  | nil => exact absurd rfl hne
  | cons a t =>
    apply List.all_eq_true.mpr
    intro x hx
    simp only [List.headD_cons, decide_eq_true_eq]
    rw [h x hx, h a (by simp)]

/-- C7 amended: for a composite of reflected members, whenever every
member residual has one row per configuration (which
ReducedCollisionFreeConst violates at with_jacobian false on batches of
two or more configurations, making the stacking raise instead), the
composite residual is the row-wise member-order concatenation of the
independently evaluated member residuals, for either value of
with_jacobian; and when with_jacobian is true, with each member
supplying a per-configuration jacobian array, the composite jacobian is
the concatenation of the member jacobians along the same output
axis. -/
theorem C7_composite_concatenation_amended (members : List GatedConst) (qs : Mat)
    (hne : members ≠ [])
    (hflag : ∀ m ∈ members, m.reflect_robot_flag = true) :
    ((∀ m ∈ members, (m.evalImpl qs false).1.length = qs.length) →
      ∃ F, _CompositeConst._evaluate members qs false = Except.ok (F, JacRet.dummy)
        ∧ F.length = qs.length
        ∧ ∀ i, i < qs.length →
            F.getD i [] = (members.map (fun m => (m.evalImpl qs false).1.getD i [])).flatten)
    ∧ ((∀ m ∈ members, (m.evalImpl qs true).1.length = qs.length) →
       (∀ m ∈ members, ∃ j, (m.evalImpl qs true).2 = JacRet.jacs j ∧ j.length = qs.length) →
      ∃ F J, _CompositeConst._evaluate members qs true = Except.ok (F, JacRet.jacs J)
        ∧ F.length = qs.length ∧ J.length = qs.length
        ∧ ∀ i, i < qs.length →
            F.getD i [] = (members.map (fun m => (m.evalImpl qs true).1.getD i [])).flatten
            ∧ J.getD i [] =
                (members.map (fun m => (jacArrOf (m.evalImpl qs true).2).getD i [])).flatten)
    ∧ ∀ (wj : Bool), ∀ m ∈ members,
        m.evaluate qs wj = Except.ok (m.evalImpl qs wj) := by
  refine ⟨?_, ?_, ?_⟩
  · intro hrows
    have hEM := evaluateMembers_of_flags qs false members hflag
    have hrsne : members.map (fun m => m.evalImpl qs false) ≠ [] := by
      simpa using hne
    have hFrows : ∀ x ∈ (members.map (fun m => m.evalImpl qs false)).map Prod.fst,
        x.length = qs.length := by
      intro x hx
      simp only [List.map_map, List.mem_map] at hx
      obtain ⟨m, hm, hxm⟩ := hx
      rw [← hxm]
      exact hrows m hm
    have hFall := all_length_eq_headD
      ((members.map (fun m => m.evalImpl qs false)).map Prod.fst) qs.length hFrows
      (by simpa using hne)
    refine ⟨concatRows ((members.map (fun m => m.evalImpl qs false)).map Prod.fst),
      ?_, ?_, ?_⟩
    · simp only [_CompositeConst._evaluate, hEM, exceptOkBind]
      rw [if_neg hrsne, if_neg (not_not_intro hFall)]
      simp [List.map_map, Function.comp_def]
    · exact concatRows_length qs.length _ (by simpa using hne) hFrows
    · intro i hi
      rw [concatRows_getD qs.length _ i hi hFrows]
      simp [List.map_map, Function.comp_def]
  · intro hrows hjac
    have hEM := evaluateMembers_of_flags qs true members hflag
    have hrsne : members.map (fun m => m.evalImpl qs true) ≠ [] := by
      simpa using hne
    have hEJ := extractJacs_of_jacs (members.map (fun m => m.evalImpl qs true))
      (by
        intro r hr
        obtain ⟨m, hm, hrm⟩ := List.mem_map.mp hr
        obtain ⟨j, hj, _⟩ := hjac m hm
        exact ⟨j, by rw [← hrm]; exact hj⟩)
    have hFrows : ∀ x ∈ (members.map (fun m => m.evalImpl qs true)).map Prod.fst,
        x.length = qs.length := by
      intro x hx
      simp only [List.map_map, List.mem_map] at hx
      obtain ⟨m, hm, hxm⟩ := hx
      rw [← hxm]
      exact hrows m hm
    have hJrows : ∀ j ∈ (members.map (fun m => m.evalImpl qs true)).map
        (fun r => jacArrOf r.2), j.length = qs.length := by
      intro x hx
      simp only [List.map_map, List.mem_map] at hx
      obtain ⟨m, hm, hxm⟩ := hx
      obtain ⟨j, hj, hjl⟩ := hjac m hm
      rw [← hxm]
      simp only [Function.comp]
      rw [hj]
      simpa [jacArrOf] using hjl
    have hFall := all_length_eq_headD
      ((members.map (fun m => m.evalImpl qs true)).map Prod.fst) qs.length hFrows
      (by simpa using hne)
    have hJall := all_length_eq_headD
      ((members.map (fun m => m.evalImpl qs true)).map (fun r => jacArrOf r.2)) qs.length
      hJrows (by simpa using hne)
    refine ⟨concatRows ((members.map (fun m => m.evalImpl qs true)).map Prod.fst),
      concatRows ((members.map (fun m => m.evalImpl qs true)).map (fun r => jacArrOf r.2)),
      ?_, ?_, ?_, ?_⟩
    · simp only [_CompositeConst._evaluate, hEM, exceptOkBind]
      rw [if_neg hrsne, if_neg (not_not_intro hFall)]
      simp only [hEJ, exceptOkBind]
      rw [if_neg (not_not_intro hJall)]
      simp [List.map_map, Function.comp_def]
    · exact concatRows_length qs.length _ (by simpa using hne) hFrows
    · exact concatRows_length qs.length _ (by simpa using hne) hJrows
    · intro i hi
      constructor
      · rw [concatRows_getD qs.length _ i hi hFrows]
        simp [List.map_map, Function.comp_def]
      · rw [concatRows_getD qs.length _ i hi hJrows]
        simp [List.map_map, Function.comp_def]
  · intro wj m hm
    simp [GatedConst.evaluate, hflag m hm]

/-- Concrete instantiation of C7 (amended) on a two-member composite of
reflected box constraints over a batch of two configurations, at both
values of with_jacobian. -/
theorem C7_composite_concatenation_amended_witness :
    (∃ F, _CompositeConst._evaluate
        [GatedConst.mk "BoxConst" true (BoxConst._evaluate ⟨[0], [1]⟩),
         GatedConst.mk "BoxConst" true (BoxConst._evaluate ⟨[-1], [2]⟩)]
        [[0], [1]] false = Except.ok (F, JacRet.dummy)
      ∧ F.length = 2
      ∧ ∀ i, i < 2 →
          F.getD i [] =
            ([GatedConst.mk "BoxConst" true (BoxConst._evaluate ⟨[0], [1]⟩),
              GatedConst.mk "BoxConst" true (BoxConst._evaluate ⟨[-1], [2]⟩)].map
              (fun m => (m.evalImpl [[0], [1]] false).1.getD i [])).flatten)
    ∧ ∃ F J,
        _CompositeConst._evaluate
          [GatedConst.mk "BoxConst" true (BoxConst._evaluate ⟨[0], [1]⟩),
           GatedConst.mk "BoxConst" true (BoxConst._evaluate ⟨[-1], [2]⟩)]
          [[0], [1]] true = Except.ok (F, JacRet.jacs J)
        ∧ F.length = 2 ∧ J.length = 2
        ∧ ∀ i, i < 2 →
            F.getD i [] =
              ([GatedConst.mk "BoxConst" true (BoxConst._evaluate ⟨[0], [1]⟩),
                GatedConst.mk "BoxConst" true (BoxConst._evaluate ⟨[-1], [2]⟩)].map
                (fun m => (m.evalImpl [[0], [1]] true).1.getD i [])).flatten
            ∧ J.getD i [] =
              ([GatedConst.mk "BoxConst" true (BoxConst._evaluate ⟨[0], [1]⟩),
                GatedConst.mk "BoxConst" true (BoxConst._evaluate ⟨[-1], [2]⟩)].map
                (fun m => (jacArrOf (m.evalImpl [[0], [1]] true).2).getD i [])).flatten := by
  have h := C7_composite_concatenation_amended
    [GatedConst.mk "BoxConst" true (BoxConst._evaluate ⟨[0], [1]⟩),
     GatedConst.mk "BoxConst" true (BoxConst._evaluate ⟨[-1], [2]⟩)]
    [[0], [1]]
    (by simp)
    (by intro m hm; simp at hm; rcases hm with h1 | h1 <;> simp [h1])
  have hfalse := h.1
    (by
      intro m hm
      simp at hm
      rcases hm with h1 | h1 <;>
        norm_num [h1, BoxConst._evaluate, chunkList, vsub, List.range_succ])
  have htrue := h.2.1
    (by
      intro m hm
      simp at hm
      rcases hm with h1 | h1 <;>
        norm_num [h1, BoxConst._evaluate, chunkList, vsub, List.range_succ])
    (by
      intro m hm
      simp at hm
      rcases hm with h1 | h1 <;>
        refine ⟨[[[1], [-1]], [[1], [-1]]], ?_, by norm_num⟩ <;>
        norm_num [h1, BoxConst._evaluate, chunkList, eye, vsub, List.range_succ])
  exact ⟨by simpa using hfalse, by simpa using htrue⟩

/-- Add `eps` to component `i` of a row (the forward finite-difference
perturbation `xs[:, i] += eps` applied row-wise). -/
def addEpsAt (i : ℕ) (eps : ℚ) (row : Vec) : Vec :=
  List.zipWith (fun j x => if j = i then x + eps else x) (List.range row.length) row

/-- Sum of a nonempty list of equal-length vectors. -/
def sumVecs : List Vec → Vec
  | [] => []
  | v :: rest => rest.foldl (fun a b => List.zipWith (fun x y => x + y) a b) v

/-- `np.tile(v, n)`: the list `v` repeated `n` times. -/
def tile (v : Vec) (n : ℕ) : Vec := (List.replicate n v).flatten

/-- skmp/constraint.py class CollFreeConst: articulated collision-free
constraint.  The kinematics map and the signed-distance function are
external collaborators, kept as function-valued fields:
`colkinMap qs` returns the feature-point positions of each
configuration flattened to `n x (n_feature * dim_tspace)` together with
the `n x n_feature x dim_tspace x dim_cspace` jacobians, and `sdf`
maps a batch of spatial points to signed distances. -/
structure CollFreeConst where
  n_feature : ℕ
  dim_tspace : ℕ
  radius_list : Vec
  colkinMap : Mat → Mat × List (List (List (List ℚ)))
  sdf : Mat → Vec

/-- skmp/constraint.py lines 206-245, CollFreeConst._evaluate: signed
distances of the stacked feature points minus the per-feature margin
radii, and (with jacobian) the forward finite-difference gradient of the
sdf (step 1e-7) composed with the feature-point jacobians by the
einsum `ijk,ijkl->ijl`. -/
def CollFreeConst._evaluate (c : CollFreeConst) (qs : Mat) (with_jacobian : Bool) :
    Mat × JacRet :=
  let nPoint := qs.length
  let (xss, jacss) := c.colkinMap qs
  let xsStacked := chunkList c.dim_tspace xss.flatten
  let sdsStacked := c.sdf xsStacked
  let marginRadius := tile c.radius_list nPoint
  let fsStacked := List.zipWith (fun x y => x - y) sdsStacked marginRadius
  let fss := chunkList c.n_feature fsStacked
  if with_jacobian then
    let eps : ℚ := 1 / 10000000
    let gradCols := (List.range c.dim_tspace).map (fun i =>
      let xsPlus := xsStacked.map (addEpsAt i eps)
      List.zipWith (fun a b => (a - b) / eps) (c.sdf xsPlus) sdsStacked)
    let gradsStacked := gradCols.transpose
    let gradss := chunkList c.n_feature gradsStacked
    let Jss := List.zipWith (fun gr jr =>
      List.zipWith (fun g j => sumVecs (List.zipWith (fun gk jk => jk.map (fun x => gk * x)) g j))
        gr jr) gradss jacss
    (fss, JacRet.jacs Jss)
  else
    (fss, JacRet.dummy)

/-- skmp/constraint.py lines 252-277, ReducedCollisionFreeConst._evaluate:
reduces each configuration to its minimum-margin feature.  When
with_jacobian is false the python source zips the n-row residual with
the 1 x 1 dummy jacobian array, so the zip truncates to a single row
and only the first configuration survives in the output. -/
def ReducedCollisionFreeConst._evaluate (c : CollFreeConst) (qs : Mat)
    (with_jacobian : Bool) : Mat × JacRet :=
  let (fss, jret) := CollFreeConst._evaluate c qs with_jacobian
  if with_jacobian then
    let jss := jacArrOf jret
    let pairs := List.zip fss jss
    (pairs.map (fun p => [p.1.getD (argminIdx p.1) 0]),
      JacRet.jacs (pairs.map (fun p => [p.2.getD (argminIdx p.1) []])))
  else
    ((fss.take 1).map (fun fs => [fs.getD (argminIdx fs) 0]), JacRet.dummy)

/-- skmp/constraint.py class PointCollFreeConst: collision-free
constraint for a point-shaped robot; the configuration itself is the
spatial point fed to the external signed-distance function. -/
structure PointCollFreeConst where
  sdf : Mat → Vec

/-- skmp/constraint.py lines 292-300, PointCollFreeConst._evaluate:
the residual is the signed distance of each configuration, and the
forward finite-difference jacobian (step eps = 1e-6) is computed and
returned unconditionally: the with_jacobian flag is ignored and the
dummy placeholder is never used. -/
def PointCollFreeConst._evaluate (c : PointCollFreeConst) (qs : Mat)
    (with_jacobian : Bool) : Mat × JacRet :=
  let eps : ℚ := 1 / 1000000
  let fs := c.sdf qs
  let nDim := (qs.headD []).length
  let gradCols := (List.range nDim).map (fun i =>
    let qs1 := qs.map (addEpsAt i eps)
    List.zipWith (fun a b => (a - b) / eps) (c.sdf qs1) fs)
  let jacsStacked := gradCols.transpose.map (fun g => [g])
  (fs.map (fun x => [x]), JacRet.jacs jacsStacked)

/-- skmp/constraint.py class ConfigPointConst: fixed configuration
target (equality). -/
structure ConfigPointConst where
  desired_angles : Vec

/-- skmp/constraint.py lines 313-320, ConfigPointConst._evaluate:
residual `qs - desired` with identity jacobian per configuration. -/
def ConfigPointConst._evaluate (c : ConfigPointConst) (qs : Mat)
    (with_jacobian : Bool) : Mat × JacRet :=
  let dim := (qs.headD []).length
  let val := qs.map (fun q => vsub q c.desired_angles)
  if with_jacobian then
    (val, JacRet.jacs (qs.map (fun _ => eye dim)))
  else
    (val, JacRet.dummy)

/-- skmp/constraint.py class PoseConstraint: absolute end-effector pose
constraint.  The kinematics map is external: `efkinMap qs` returns the
pose rows (`n x m` after the reshape in the source) and the
`n x m x d` jacobians. -/
structure PoseConstraint where
  desired_poses : List Vec
  efkinMap : Mat → Mat × List (List (List ℚ))

/-- skmp/constraint.py lines 344-355, PoseConstraint._evaluate: residual
is the mapped pose rows minus the horizontally stacked desired poses;
the jacobians supplied by the kinematics map are returned
unconditionally: the with_jacobian flag is ignored and the dummy
placeholder is never used. -/
def PoseConstraint._evaluate (c : PoseConstraint) (qs : Mat)
    (with_jacobian : Bool) : Mat × JacRet :=
  let (xs, jacs) := c.efkinMap qs
  let target := c.desired_poses.flatten
  (xs.map (fun row => vsub row target), JacRet.jacs jacs)

/-- skmp/constraint.py class RelativePoseConstraint: after construction
the copied kinematics map has three features; the map is external:
`efkinMap qs` returns `n x n_feature x n_task` positions and
`n x n_feature x n_task x n_dof` jacobians. -/
structure RelativePoseConstraint where
  efkinMap : Mat → List (List (List ℚ)) × List (List (List (List ℚ)))

/-- skmp/constraint.py lines 407-424, RelativePoseConstraint._evaluate:
difference between feature 2 and the synthetic feature 3, and the
difference of their jacobians when requested. -/
def RelativePoseConstraint._evaluate (c : RelativePoseConstraint) (qs : Mat)
    (with_jacobian : Bool) : Mat × JacRet :=
  let (xs, jacs) := c.efkinMap qs
  let diffs := xs.map (fun x => vsub (x.getD 1 []) (x.getD 2 []))
  if with_jacobian then
    (diffs, JacRet.jacs (jacs.map (fun j =>
      List.zipWith (fun a b => vsub a b) (j.getD 1 []) (j.getD 2 []))))
  else
    (diffs, JacRet.dummy)

/-- skmp/constraint.py class PairWiseSelfCollFreeConst: the pairwise
squared-distance routine of the fk solver is external: `sqdistsFn qs`
returns the stacked pair squared distances (length `n * n_pair`) and
the stacked gradients (`(n * n_pair) x d` rows). -/
structure PairWiseSelfCollFreeConst where
  check_sphere_pair_sqdists : Vec
  sqdistsFn : Mat → Vec × Mat

/-- skmp/constraint.py lines 484-501, PairWiseSelfCollFreeConst._evaluate:
pair squared distances minus the squared radii sums, with the supplied
gradients reshaped to `n x n_pair x d` when requested. -/
def PairWiseSelfCollFreeConst._evaluate (c : PairWiseSelfCollFreeConst) (qs : Mat)
    (with_jacobian : Bool) : Mat × JacRet :=
  let nSample := qs.length
  let (sqdistsStacked, gradsStacked) := c.sqdistsFn qs
  let sqdistss := chunkList (sqdistsStacked.length / nSample) sqdistsStacked
  let valuess := sqdistss.map (fun row => vsub row c.check_sphere_pair_sqdists)
  if with_jacobian then
    (valuess, JacRet.jacs (chunkList (gradsStacked.length / nSample) gradsStacked))
  else
    (valuess, JacRet.dummy)

/-- skmp/constraint.py class NeuralSelfCollFreeConst: the learned
inference model is external: `infer q` returns the scalar collision
score and its gradient. -/
structure NeuralSelfCollFreeConst where
  infer : Vec → ℚ × Vec
  with_base : Bool
  threshold : ℚ

/-- skmp/constraint.py lines 532-555, NeuralSelfCollFreeConst._evaluate:
residual `threshold - score` per configuration; with a floating base
the trailing 3 dimensions are stripped before inference and a zero
gradient is padded back; the gradient is negated to match the residual
sign. -/
def NeuralSelfCollFreeConst._evaluate (c : NeuralSelfCollFreeConst) (qs : Mat)
    (with_jacobian : Bool) : Mat × JacRet :=
  let rows := qs.map (fun q =>
    let qIn := if c.with_base then q.take (q.length - 3) else q
    let (v, g) := c.infer qIn
    let gPad := if c.with_base then g ++ [0, 0, 0] else g
    (c.threshold - v, gPad.map (fun x => -x)))
  let valss := rows.map (fun r => [r.1])
  if with_jacobian then
    (valss, JacRet.jacs (rows.map (fun r => [r.2])))
  else
    (valss, JacRet.dummy)

/-- C2 fails as stated: PointCollFreeConst._evaluate ignores the
with_jacobian flag, so with with_jacobian false it still returns the
computed finite-difference jacobian array, not the single-NaN sentinel;
PoseConstraint._evaluate likewise always returns the jacobians supplied
by the kinematics map. -/
theorem C2_sentinel_jacobian_counterexample :
    (PointCollFreeConst._evaluate ⟨fun qs => qs.map (fun q => q.getD 0 0)⟩ [[0]] false).2
      = JacRet.jacs [[[1]]]
    ∧ (PointCollFreeConst._evaluate ⟨fun qs => qs.map (fun q => q.getD 0 0)⟩ [[0]] false).2
      ≠ JacRet.dummy
    ∧ (PoseConstraint._evaluate ⟨[[0]], fun qs => (qs, qs.map (fun _ => [[1]]))⟩
        [[0]] false).2 = JacRet.jacs [[[1]]]
    ∧ (PoseConstraint._evaluate ⟨[[0]], fun qs => (qs, qs.map (fun _ => [[1]]))⟩
        [[0]] false).2 ≠ JacRet.dummy := by
  refine ⟨?_, fun h => JacRet.noConfusion h, ?_, fun h => JacRet.noConfusion h⟩
  · norm_num [PointCollFreeConst._evaluate, addEpsAt, List.range_succ]
    rfl
  · norm_num [PoseConstraint._evaluate]

/-- C2 amended: every constraint variant except PointCollFreeConst and
PoseConstraint returns the single-NaN sentinel placeholder as the
jacobian slot when with_jacobian is false; PointCollFreeConst and
PoseConstraint ignore the flag and always return the actual computed
jacobian array (the same one returned when with_jacobian is true),
never the sentinel. -/
theorem C2_sentinel_jacobian_amended :
    (∀ (c : BoxConst) (qs : Mat), (BoxConst._evaluate c qs false).2 = JacRet.dummy)
    ∧ (∀ (c : CollFreeConst) (qs : Mat),
        (CollFreeConst._evaluate c qs false).2 = JacRet.dummy)
    ∧ (∀ (c : CollFreeConst) (qs : Mat),
        (ReducedCollisionFreeConst._evaluate c qs false).2 = JacRet.dummy)
    ∧ (∀ (c : ConfigPointConst) (qs : Mat),
        (ConfigPointConst._evaluate c qs false).2 = JacRet.dummy)
    ∧ (∀ (c : RelativePoseConstraint) (qs : Mat),
        (RelativePoseConstraint._evaluate c qs false).2 = JacRet.dummy)
    ∧ (∀ (c : PairWiseSelfCollFreeConst) (qs : Mat),
        (PairWiseSelfCollFreeConst._evaluate c qs false).2 = JacRet.dummy)
    ∧ (∀ (c : NeuralSelfCollFreeConst) (qs : Mat),
        (NeuralSelfCollFreeConst._evaluate c qs false).2 = JacRet.dummy)
    ∧ (∀ (c : PointCollFreeConst) (qs : Mat),
        (PointCollFreeConst._evaluate c qs false).2 =
          (PointCollFreeConst._evaluate c qs true).2
        ∧ (PointCollFreeConst._evaluate c qs false).2 ≠ JacRet.dummy)
    ∧ (∀ (c : PoseConstraint) (qs : Mat),
        (PoseConstraint._evaluate c qs false).2 = (PoseConstraint._evaluate c qs true).2
        ∧ (PoseConstraint._evaluate c qs false).2 ≠ JacRet.dummy) := by
  refine ⟨?_, ?_, ?_, ?_, ?_, ?_, ?_, ?_, ?_⟩
  · intro c qs
    simp [BoxConst._evaluate]
  · intro c qs
    simp [CollFreeConst._evaluate]
  · intro c qs
    simp [ReducedCollisionFreeConst._evaluate]
  · intro c qs
    simp [ConfigPointConst._evaluate]
  · intro c qs
    simp [RelativePoseConstraint._evaluate]
  · intro c qs
    simp [PairWiseSelfCollFreeConst._evaluate]
  · intro c qs
    simp [NeuralSelfCollFreeConst._evaluate]
  · intro c qs
    constructor
    · simp [PointCollFreeConst._evaluate]
    · simp [PointCollFreeConst._evaluate]
  · intro c qs
    constructor
    · simp [PoseConstraint._evaluate]
    · simp [PoseConstraint._evaluate]

/-- C7 fails as stated: the residual clause of the claim is
unconditional over evaluate calls, but with with_jacobian false a
ReducedCollisionFreeConst member returns a single residual row for the
whole batch (its python source zips the residual rows with the 1 x 1
dummy jacobian, truncating to one row), so on a batch of two
configurations `np.hstack` raises a shape error and the composite
returns no residual at all, instead of the member-wise concatenation
the claim requires. -/
theorem C7_composite_concatenation_counterexample :
    _CompositeConst._evaluate
      [GatedConst.mk "BoxConst" true (BoxConst._evaluate ⟨[0], [2]⟩),
       GatedConst.mk "ReducedCollisionFreeConst" true
         (ReducedCollisionFreeConst._evaluate
           ⟨1, 1, [0], fun qs => (qs.map (fun q => [q.getD 0 0]), qs.map (fun _ => [[[1]]])),
             fun xs => xs.map (fun x => x.getD 0 0 + 1)⟩)]
      [[0], [1]] false
      = Except.error
          "all the input array dimensions except for the concatenation axis must match exactly"
    ∧ (BoxConst._evaluate ⟨[0], [2]⟩ [[0], [1]] false).1 = [[0, 1], [2, 1]]
    ∧ (ReducedCollisionFreeConst._evaluate
        ⟨1, 1, [0], fun qs => (qs.map (fun q => [q.getD 0 0]), qs.map (fun _ => [[[1]]])),
          fun xs => xs.map (fun x => x.getD 0 0 + 1)⟩ [[0], [1]] false).1 = [[1]] := by
  have hbox : BoxConst._evaluate ⟨[0], [2]⟩ [[0], [1]] false = ([[0, 1], [2, 1]], JacRet.dummy) := by
    norm_num [BoxConst._evaluate, chunkList, vsub, List.range_succ]
  have hred : ReducedCollisionFreeConst._evaluate
      ⟨1, 1, [0], fun qs => (qs.map (fun q => [q.getD 0 0]), qs.map (fun _ => [[[1]]])),
        fun xs => xs.map (fun x => x.getD 0 0 + 1)⟩ [[0], [1]] false
      = ([[1]], JacRet.dummy) := by
    norm_num [ReducedCollisionFreeConst._evaluate, CollFreeConst._evaluate, chunkList,
      tile, argminIdx, List.range_succ]
  refine ⟨?_, by rw [hbox], by rw [hred]⟩
  simp only [_CompositeConst._evaluate, _CompositeConst.evaluateMembers, GatedConst.evaluate,
    Bool.true_eq_false, if_false, exceptOkBind, hbox, hred]
  norm_num
  intro hcon
  exact absurd hcon (List.cons_ne_nil _ _)

/-- Global inequality constraint as held by a Problem: a single
constraint (with the string produced by formatting it in a diagnostic)
or an IneqCompositeConst with its member list.  Payload functions are
batch residual maps with the reflection gate already passed. -/
inductive IneqConst where
  | atom (name : String) (f : Mat → Mat) : IneqConst
  | comp (members : List (String × (Mat → Mat))) : IneqConst

/-- Batch residual evaluation of a global inequality constraint
(a composite concatenates member residual rows, cf.
_CompositeConst._evaluate). -/
def IneqConst.evalBatch : IneqConst → Mat → Mat
  | IneqConst.atom _ f, qs => f qs
  | IneqConst.comp ms, qs => concatRows (ms.map (fun m => m.2 qs))

/-- Modelled from the spec: `AbstractIneqConst.is_valid` is repository
code not included under src/ (only its callers in
skmp/solver/interface.py are).  Per the specification an inequality
constraint accepts a configuration exactly when all of its residuals
are strictly positive; this is the per-member acceptance test. -/
def memberValid (f : Mat → Mat) (q : Vec) : Bool :=
  (f [q]).flatten.all (fun x => decide (0 < x))

/-- Modelled from the spec: acceptance of a configuration by the global
inequality constraint; a composite accepts exactly when every member
accepts (concatenated residuals all strictly positive). -/
def IneqConst.is_valid : IneqConst → Vec → Bool
  | IneqConst.atom _ f, q => memberValid f q
  | IneqConst.comp ms, q => ms.all (fun m => memberValid m.2 q)

/-- skmp/solver/interface.py lines 32-41, dataclass Problem.  The goal
constraint only enters the feasibility checks through its
single-configuration residual, kept as `goalEval`; the global equality
constraint only enters through its presence. -/
structure Problem where
  start : Vec
  box_const : BoxConst
  goalEval : Vec → Vec
  global_ineq_const : Option IneqConst
  global_eq_const : Option Unit
  eqconst_admissible_mse : ℚ
  motion_step_box_ : ℚ ⊕ Vec
  skip_init_feasibility_check : Bool

/-- interface.py lines 63-70, Problem.motion_step_box: a scalar entry is
broadcast to a vector of the start dimension. -/
def Problem.motion_step_box (p : Problem) : Vec :=
  match p.motion_step_box_ with
  | Sum.inl s => List.replicate p.start.length s
  | Sum.inr v => v

/-- interface.py lines 75-95, Problem.is_satisfied.  The routine
`is_valid_motion_step` (skmp/solver/motion_step_box.py) is repository
code not included under src/, so the motion-step validity check is kept
as the explicit function parameter `validStep`, receiving the
per-dimension resolution, the two waypoints and the global inequality
constraint, exactly as at the call site. -/
def Problem.is_satisfied (p : Problem)
    (validStep : Vec → Vec → Vec → IneqConst → Bool) (traj : List Vec) : Bool :=
  let vals := p.goalEval (traj.getLastD [])
  if dot vals vals > p.eqconst_admissible_mse then false
  else
    match p.global_ineq_const with
    | none => true
    | some c =>
      if ¬ (c.evalBatch traj).flatten.all (fun x => decide (0 < x)) then false
      else
        (List.range (traj.length - 1)).all
          (fun i => validStep p.motion_step_box (traj.getD i []) (traj.getD (i + 1) []) c)

/-- Componentwise strict comparison of equal-length vectors
(`np.all(a < b)` and `np.all(a > b)` via the flipped arguments). -/
def allZip (r : ℚ → ℚ → Bool) (a b : Vec) : Bool :=
  (List.zipWith r a b).all id

/-- The diagnostic messages contributed by the global inequality
constraint in Problem.check_init_feasibility (interface.py lines
51-58): when the constraint rejects the start, a composite reports each
rejecting member individually and a plain constraint reports itself.
The source message text uses a contraction of does not. -/
def ineqInitMsgs (q : Vec) : Option IneqConst → List String
  | none => []
  | some c =>
    if ¬ c.is_valid q then
      match c with
      | IneqConst.comp ms =>
        (ms.filter (fun m => ¬ memberValid m.2 q)).map
          (fun m => "q_start does not satisfy " ++ m.1)
      | IneqConst.atom name _ => ["q_start does not satisfy " ++ name]
    else []

/-- The diagnostic message list assembled by
Problem.check_init_feasibility (interface.py lines 46-58). -/
def Problem.check_init_feasibility_msgs (p : Problem) : List String :=
  (if ¬ allZip (fun x y => decide (x < y)) p.start p.box_const.ub then
    ["q_start does not satisfy BoxConst upper"] else [])
  ++ (if ¬ allZip (fun x y => decide (x > y)) p.start p.box_const.lb then
    ["q_start does not satisfy BoxConst lower"] else [])
  ++ ineqInitMsgs p.start p.global_ineq_const

/-- interface.py lines 43-61, Problem.check_init_feasibility: collects
the diagnostic messages and returns feasibility (no message collected)
together with the comma-joined diagnostic. -/
def Problem.check_init_feasibility (p : Problem) : Bool × String :=
  if p.skip_init_feasibility_check then (true, "")
  else
    (p.check_init_feasibility_msgs.isEmpty,
      String.intercalate ", " p.check_init_feasibility_msgs)

/-- C3 fails as stated: the source tests `vals.dot(vals) >
eqconst_admissible_mse`, so a trajectory whose final squared goal
residual exactly equals the tolerance is accepted, while the claim
requires the squared residual to be strictly below the tolerance.
Here the goal residual of the final waypoint is [1], its square is 1,
the tolerance is 1, and is_satisfied returns true although 1 < 1 is
false. -/
theorem C3_goal_tolerance_counterexample :
    Problem.is_satisfied
      ⟨[0], ⟨[-10], [10]⟩, (fun q => q), none, none, 1, Sum.inl (1/10), false⟩
      (fun _ _ _ _ => true) [[1]] = true
    ∧ dot ([1] : Vec) [1] = 1
    ∧ ¬ ((1 : ℚ) < 1) := by
  refine ⟨?_, ?_, ?_⟩
  · norm_num [Problem.is_satisfied, dot]
  · norm_num [dot]
  · norm_num

/-- C3 amended: is_satisfied accepts a trajectory exactly when the
squared goal residual of its final waypoint is at most (not strictly
below) the admissible tolerance, and, when a global inequality
constraint is present, all inequality residuals of every waypoint are
strictly positive and every consecutive waypoint pair passes the
motion-step validity check; equality constraints at intermediate
waypoints are never consulted. -/
theorem C3_is_satisfied_amended (p : Problem)
    (validStep : Vec → Vec → Vec → IneqConst → Bool) (traj : List Vec)
    (_hne : traj ≠ []) :
    p.is_satisfied validStep traj = true ↔
      (dot (p.goalEval (traj.getLastD [])) (p.goalEval (traj.getLastD []))
          ≤ p.eqconst_admissible_mse
      ∧ ∀ c, p.global_ineq_const = some c →
          ((∀ x ∈ (c.evalBatch traj).flatten, 0 < x)
          ∧ ∀ i, i + 1 < traj.length →
            validStep p.motion_step_box (traj.getD i []) (traj.getD (i + 1) []) c = true)) := by
  by_cases hd : dot (p.goalEval (traj.getLastD [])) (p.goalEval (traj.getLastD []))
      > p.eqconst_admissible_mse
  · have hls : p.is_satisfied validStep traj = false := by
      unfold Problem.is_satisfied
      rw [if_pos hd]
    rw [hls]
    simp only [Bool.false_eq_true, false_iff]
    intro h
    exact absurd hd (not_lt.mpr h.1)
  · have hle := not_lt.mp hd
    rcases hc : p.global_ineq_const with _ | c
    · have hls : p.is_satisfied validStep traj = true := by
        unfold Problem.is_satisfied
        rw [if_neg hd, hc]
      rw [hls]
      constructor
      · intro _
        refine ⟨hle, ?_⟩
        intro c2 hc2
        exact Option.noConfusion hc2
      · intro _
        rfl
    · have hiota : p.is_satisfied validStep traj =
        (if dot (p.goalEval (traj.getLastD [])) (p.goalEval (traj.getLastD []))
            > p.eqconst_admissible_mse then false
         else if ¬ (c.evalBatch traj).flatten.all (fun x => decide (0 < x)) then false
         else (List.range (traj.length - 1)).all
           (fun i => validStep p.motion_step_box (traj.getD i []) (traj.getD (i + 1) []) c)) := by
        unfold Problem.is_satisfied
        rw [hc]
      rw [hiota, if_neg hd]
      by_cases hall : (c.evalBatch traj).flatten.all (fun x => decide (0 < x)) = true
      · rw [if_neg (by simp [hall])]
        constructor
        · intro hstep
          refine ⟨hle, ?_⟩
          intro c2 hc2
          injection hc2 with hc2
          subst hc2
          constructor
          · intro x hx
            have h2 := List.all_eq_true.mp hall x hx
            simpa using h2
          · intro i hi
            exact List.all_eq_true.mp hstep i (List.mem_range.mpr (by omega))
        · rintro ⟨_, hrest⟩
          obtain ⟨_, hstep⟩ := hrest c rfl
          apply List.all_eq_true.mpr
          intro i hi
          exact hstep i (by have := List.mem_range.mp hi; omega)
      · rw [if_pos (by simpa using hall)]
        simp only [Bool.false_eq_true, false_iff]
        intro h
        obtain ⟨hres, _⟩ := h.2 c rfl
        apply hall
        apply List.all_eq_true.mpr
        intro x hx
        simpa using hres x hx

/-- Concrete instantiation of C3 (amended): a two-waypoint trajectory
satisfying a goal, a positive atomic inequality constraint and the
motion-step check is accepted. -/
theorem C3_is_satisfied_amended_witness :
    Problem.is_satisfied
      ⟨[0], ⟨[-1], [1]⟩, (fun q => q),
        some (IneqConst.atom "A" (fun qs => qs.map (fun q => [q.getD 0 0 + 1]))),
        none, 1, Sum.inl 1, false⟩
      (fun _ _ _ _ => true) [[0], [1/2]] = true := by
  apply (C3_is_satisfied_amended
      ⟨[0], ⟨[-1], [1]⟩, (fun q => q),
        some (IneqConst.atom "A" (fun qs => qs.map (fun q => [q.getD 0 0 + 1]))),
        none, 1, Sum.inl 1, false⟩
      (fun _ _ _ _ => true) [[0], [1/2]] (by simp)).mpr
  constructor
  · norm_num [dot]
  · intro c hcc
    injection hcc with hcc
    subst hcc
    constructor
    · intro x hx
      simp only [IneqConst.evalBatch, List.map_cons, List.map_nil, List.flatten] at hx
      norm_num at hx
      rcases hx with h1 | h1 <;> norm_num [h1]
    · intro i _
      rfl

theorem allZip_iff (r : ℚ → ℚ → Bool) :
    ∀ a b : Vec, a.length = b.length →
      (allZip r a b = true ↔ ∀ i, i < a.length → r (a.getD i 0) (b.getD i 0) = true)
  | [], [], _ => by simp [allZip]
  | [], _ :: _, h => by simp at h
  | _ :: _, [], h => by simp at h
  | x :: a, y :: b, h => by
    have ih := allZip_iff r a b (by simpa using h)
    simp only [allZip, List.zipWith_cons_cons, List.all_cons, id, Bool.and_eq_true] at *
    constructor
    · rintro ⟨hxy, hrest⟩ i hi
      cases i with
      | zero => simpa using hxy
      | succ n => simpa using (ih.mp hrest) n (by simpa using hi)
    · intro hall
      refine ⟨by simpa using hall 0 (by simp), ih.mpr ?_⟩
      intro i hi
      simpa using hall (i + 1) (by simpa using hi)

theorem ineqInitMsgs_nil_iff (q : Vec) (oc : Option IneqConst) :
    ineqInitMsgs q oc = [] ↔ ∀ c, oc = some c → c.is_valid q = true := by
  cases oc with
  | none => simp [ineqInitMsgs]
  | some c =>
    by_cases hv : c.is_valid q = true
    · simp [ineqInitMsgs, hv]
    · have hne : ineqInitMsgs q (some c) ≠ [] := by
        cases c with
        | atom name f => simp [ineqInitMsgs, hv]
        | comp ms =>
          have hex : ∃ m ∈ ms, ¬ memberValid m.2 q = true := by
            by_contra hcon
            push_neg at hcon
            exact hv (by
              simp only [IneqConst.is_valid, List.all_eq_true]
              intro m hm
              simpa using hcon m hm)
          obtain ⟨m, hm, hmv⟩ := hex
          simp only [ineqInitMsgs, if_pos hv, ne_eq, List.map_eq_nil_iff,
            List.filter_eq_nil_iff, not_forall]
          exact ⟨m, hm, by simpa using hmv⟩
      simp only [hne, false_iff, not_forall]
      exact ⟨c, rfl, by simpa using hv⟩

/-- C4: with the skip flag unset, check_init_feasibility returns
(true, empty diagnostic) exactly when the start lies componentwise
strictly inside the box bounds and, when a global inequality constraint
is present, the start is accepted by it; and when the inequality
constraint is a composite, each rejecting member contributes its own
diagnostic message. -/
theorem C4_check_init_feasibility (p : Problem)
    (hskip : p.skip_init_feasibility_check = false)
    (hub : p.start.length = p.box_const.ub.length)
    (hlb : p.start.length = p.box_const.lb.length) :
    (p.check_init_feasibility = (true, "") ↔
      ((∀ i, i < p.start.length → p.start.getD i 0 < p.box_const.ub.getD i 0)
      ∧ (∀ i, i < p.start.length → p.box_const.lb.getD i 0 < p.start.getD i 0)
      ∧ ∀ c, p.global_ineq_const = some c → c.is_valid p.start = true))
    ∧ (p.check_init_feasibility.1 = true → p.check_init_feasibility.2 = "")
    ∧ (∀ ms, p.global_ineq_const = some (IneqConst.comp ms) →
        ∀ m ∈ ms, memberValid m.2 p.start = false →
          ("q_start does not satisfy " ++ m.1) ∈ p.check_init_feasibility_msgs) := by
  have hmain : p.check_init_feasibility =
      (p.check_init_feasibility_msgs.isEmpty,
        String.intercalate ", " p.check_init_feasibility_msgs) := by
    unfold Problem.check_init_feasibility
    rw [hskip]
    simp
  refine ⟨?_, ?_, ?_⟩
  case refine_2 =>
    rw [hmain]
    intro h
    simp only at h ⊢
    rw [List.isEmpty_iff.mp h]
    rfl
  · have hiff1 : p.check_init_feasibility = (true, "") ↔
        p.check_init_feasibility_msgs = [] := by
      rw [hmain]
      constructor
      · intro h
        have h1 := congrArg Prod.fst h
        simpa [List.isEmpty_iff] using h1
      · intro h
        rw [h]
        rfl
    rw [hiff1]
    unfold Problem.check_init_feasibility_msgs
    rw [List.append_assoc, List.append_eq_nil, List.append_eq_nil]
    constructor
    · rintro ⟨h1, h2, h3⟩
      refine ⟨?_, ?_, (ineqInitMsgs_nil_iff _ _).mp h3⟩
      · have hb : allZip (fun x y => decide (x < y)) p.start p.box_const.ub = true := by
          by_contra hcon
          simp [hcon] at h1
        intro i hi
        simpa using (allZip_iff _ _ _ hub).mp hb i hi
      · have hb : allZip (fun x y => decide (x > y)) p.start p.box_const.lb = true := by
          by_contra hcon
          simp [hcon] at h2
        intro i hi
        simpa using (allZip_iff _ _ _ hlb).mp hb i hi
    · rintro ⟨h1, h2, h3⟩
      refine ⟨?_, ?_, (ineqInitMsgs_nil_iff _ _).mpr h3⟩
      · have hb : allZip (fun x y => decide (x < y)) p.start p.box_const.ub = true :=
          (allZip_iff _ _ _ hub).mpr (fun i hi => by simpa using h1 i hi)
        simp [hb]
      · have hb : allZip (fun x y => decide (x > y)) p.start p.box_const.lb = true :=
          (allZip_iff _ _ _ hlb).mpr (fun i hi => by simpa using h2 i hi)
        simp [hb]
  · intro ms hms m hm hmv
    unfold Problem.check_init_feasibility_msgs
    rw [hms]
    have hv : ¬ (IneqConst.comp ms).is_valid p.start = true := by
      simp only [IneqConst.is_valid, List.all_eq_true, not_forall]
      exact ⟨m, hm, by simp [hmv]⟩
    have hmem : ("q_start does not satisfy " ++ m.1) ∈
        ineqInitMsgs p.start (some (IneqConst.comp ms)) := by
      simp only [ineqInitMsgs, if_pos hv]
      exact List.mem_map.mpr ⟨m, List.mem_filter.mpr ⟨hm, by simp [hmv]⟩, rfl⟩
    simp only [List.mem_append]
    exact Or.inr hmem

/-- Concrete instantiation of C4: a start strictly inside the box and
accepted by a composite inequality constraint is reported feasible with
an empty diagnostic. -/
theorem C4_check_init_feasibility_witness :
    Problem.check_init_feasibility
      ⟨[0], ⟨[-1], [1]⟩, (fun q => q),
        some (IneqConst.comp [("A", fun qs => qs.map (fun q => [q.getD 0 0 + 1]))]),
        none, 1, Sum.inl 1, false⟩ = (true, "") := by
  apply (C4_check_init_feasibility
      ⟨[0], ⟨[-1], [1]⟩, (fun q => q),
        some (IneqConst.comp [("A", fun qs => qs.map (fun q => [q.getD 0 0 + 1]))]),
        none, 1, Sum.inl 1, false⟩ rfl (by norm_num) (by norm_num)).1.mpr
  refine ⟨?_, ?_, ?_⟩
  · intro i hi
    norm_num at hi
    norm_num [hi]
  · intro i hi
    norm_num at hi
    norm_num [hi]
  · intro c hcc
    injection hcc with hcc
    subst hcc
    simp only [IneqConst.is_valid, List.all_eq_true]
    intro mem hmem
    simp only [List.mem_singleton] at hmem
    subst hmem
    norm_num [memberValid]

/-- Result of a concrete solver as consumed by the meta-solvers: only
the optional trajectory matters to the orchestration logic
(interface.py lines 103-112, ResultProtocol).  The canonical abnormal
instance carries no trajectory. -/
structure SolverResult (β : Type) where
  traj : Option β
deriving DecidableEq, Repr

/-- ResultProtocol.abnormal: the canonical failed-without-running
result. -/
def SolverResult.abnormal {β : Type} : SolverResult β := ⟨none⟩

/-- interface.py lines 193-212, ParallelSolver._solve, modelled on the
sequence of worker results taken from the result queue in arrival
order: the first result carrying a trajectory is returned (terminating
and joining the remaining worker processes is an external side effect
of that branch); if every consumed result lacks a trajectory the
canonical abnormal result is returned.  With zero workers the source
hits an unbound local variable, modelled as `none`. -/
def ParallelSolver._solve {β : Type} : List (SolverResult β) → Option (SolverResult β)
  | [] => none
  | [r] => some (if r.traj.isSome then r else SolverResult.abnormal)
  | r :: s :: rest =>
    if r.traj.isSome then some r else ParallelSolver._solve (s :: rest)

/-- C9: consuming any nonempty arrival-ordered sequence of worker
results returns the first result whose trajectory is present, and the
canonical abnormal result when none has one. -/
theorem C9_parallel_first_feasible {β : Type} :
    ∀ results : List (SolverResult β), results ≠ [] →
      ParallelSolver._solve results =
        some ((results.find? (fun r => r.traj.isSome)).getD SolverResult.abnormal)
  | [], h => absurd rfl h
  | [r], _ => by
    cases hr : r.traj.isSome <;>
      simp [ParallelSolver._solve, List.find?, hr, SolverResult.abnormal]
  | r :: s :: rest, _ => by
    cases hr : r.traj.isSome
    · simpa [ParallelSolver._solve, List.find?, hr] using
        C9_parallel_first_feasible (s :: rest) (by simp)
    · simp [ParallelSolver._solve, List.find?, hr]

/-- Concrete instantiation of C9: the first trajectory-bearing result
wins, and an all-failure sequence yields the abnormal result. -/
theorem C9_parallel_first_feasible_witness :
    ParallelSolver._solve [(⟨none⟩ : SolverResult ℕ), ⟨some 7⟩, ⟨some 3⟩] = some ⟨some 7⟩
    ∧ ParallelSolver._solve [(⟨none⟩ : SolverResult ℕ), ⟨none⟩] =
        some SolverResult.abnormal := by
  constructor
  · rw [C9_parallel_first_feasible _ (by simp)]
    rfl
  · rw [C9_parallel_first_feasible _ (by simp)]
    rfl

/-- Squared Euclidean distance between two feature vectors
(one row of `np.sum((vec_descs - desc) ** 2, axis=1)`). -/
def sqdist (a b : Vec) : ℚ := ((vsub a b).map (fun x => x * x)).sum

/-- The squared distances of every case-base feature vector to a
query (`np.sum((vec_descs - desc) ** 2, axis=1)`). -/
def sqdistList (descs : List Vec) (q : Vec) : List ℚ := descs.map (fun v => sqdist v q)

/-- Comparison used by the argsort model: by value, ties by index.
numpy leaves the tie order of `np.argsort` unspecified, so every
property that depends on the order is guarded by a no-tie
hypothesis. -/
def lexLe (v : List ℚ) (i j : ℕ) : Bool :=
  decide (v.getD i 0 < v.getD j 0) || (decide (v.getD i 0 = v.getD j 0) && decide (i ≤ j))

/-- Insert an index into an index list sorted by `lexLe`. -/
def insertSortedIdx (v : List ℚ) (i : ℕ) : List ℕ → List ℕ
  | [] => [i]
  | j :: rest => if lexLe v i j then i :: j :: rest else j :: insertSortedIdx v i rest

/-- Insertion sort of an index list by `lexLe`. -/
def argsortAux (v : List ℚ) : List ℕ → List ℕ
  | [] => []
  | i :: rest => insertSortedIdx v i (argsortAux v rest)

/-- `np.argsort(v)`: the indices of `v` ordered by increasing value. -/
def argsort (v : List ℚ) : List ℕ := argsortAux v (List.range v.length)

/-- interface.py line 257: `np.argsort(sqdists)[1 : knn + 1]`, the
neighbor indices used for case `i` during leave-one-out calibration
(the first sorted index is dropped on the assumption that it is the
case itself). -/
def looNeighborIdxs (descs : List Vec) (i knn : ℕ) : List ℕ :=
  ((argsort (sqdistList descs (descs.getD i []))).drop 1).take knn

/-- The neighbor indices the claim describes: the k nearest neighbors
of case i excluding the case itself. -/
def specNeighborIdxs (descs : List Vec) (i knn : ℕ) : List ℕ :=
  ((argsort (sqdistList descs (descs.getD i []))).filter (fun j => decide (j ≠ i))).take knn

/-- interface.py line 258: how many of the given case indices have no
stored trajectory. -/
def countNone {α : Type} (trajs : List (Option α)) (idxs : List ℕ) : ℕ :=
  (idxs.filter (fun idx => (trajs.getD idx none).isNone)).length

/-- interface.py lines 254-263: the leave-one-out mismatch tally of a
candidate threshold `t` over the case base. -/
def looError {α : Type} (dataset : List (Vec × Option α)) (knn t : ℕ) : ℕ :=
  ((List.range dataset.length).filter (fun i =>
    (decide (t ≤ countNone (dataset.map Prod.snd)
        (looNeighborIdxs (dataset.map Prod.fst) i knn)))
      != ((dataset.map Prod.snd).getD i none).isNone)).length

/-- The mismatch tally of the claim: identical to `looError` except
that the neighbors are the k nearest excluding the case itself. -/
def specMismatch {α : Type} (dataset : List (Vec × Option α)) (knn t : ℕ) : ℕ :=
  ((List.range dataset.length).filter (fun i =>
    (decide (t ≤ countNone (dataset.map Prod.snd)
        (specNeighborIdxs (dataset.map Prod.fst) i knn)))
      != ((dataset.map Prod.snd).getD i none).isNone)).length

/-- interface.py lines 251-265: the leave-one-out calibration of the
infeasibility threshold, choosing the candidate in `range(1, knn)` with
minimal mismatch count, first occurrence on ties (`np.argmin`).  With
an empty candidate list `np.argmin` raises ValueError, modelled as
`none`. -/
def calibrate {α : Type} (dataset : List (Vec × Option α)) (knn : ℕ) : Option ℕ :=
  let thresholds := List.range' 1 (knn - 1)
  let errors := thresholds.map (fun t => looError dataset knn t)
  if thresholds = [] then none
  else some (thresholds.getD (argminIdx errors) 0)

/-- interface.py lines 223-230, dataclass NearestNeigborSolver (the
internal solver is supplied separately at solve time). -/
structure NearestNeigborSolver (α : Type) where
  vec_descs : List Vec
  trajectories : List (Option α)
  knn : ℕ
  infeasibility_threshold : ℚ

/-- interface.py lines 232-268, NearestNeigborSolver.init: stores the
dataset columns and either the explicitly supplied threshold or the
calibrated one. -/
def NearestNeigborSolver.init {α : Type} (dataset : List (Vec × Option α)) (knn : ℕ)
    (infeasibility_threshold : Option ℚ) : Option (NearestNeigborSolver α) :=
  match infeasibility_threshold with
  | some t => some ⟨dataset.map Prod.fst, dataset.map Prod.snd, knn, t⟩
  | none => (calibrate dataset knn).map
      (fun t : ℕ => ⟨dataset.map Prod.fst, dataset.map Prod.snd, knn, (t : ℚ)⟩)

/-- interface.py lines 270-273, NearestNeigborSolver._knn_trajectories:
the stored trajectories of the knn nearest case-base entries. -/
def NearestNeigborSolver._knn_trajectories {α : Type} (s : NearestNeigborSolver α)
    (query_desc : Vec) : List (Option α) :=
  ((argsort (sqdistList s.vec_descs query_desc)).take s.knn).map
    (fun i => s.trajectories.getD i none)

/-- What NearestNeigborSolver._solve does with the internal solver:
return the abnormal result without calling it, or call it exactly once
with the given guide. -/
inductive SolveAction (α : Type) where
  | abnormal : SolveAction α
  | internalCall (guide : Option α) : SolveAction α
deriving DecidableEq

/-- Control-flow skeleton of NearestNeigborSolver._solve (interface.py
lines 275-292): with a query, retrieve the knn nearest entries; if the
count of entries without a trajectory reaches the threshold, the
abnormal result is returned without calling the internal solver;
otherwise the loop takes the first trajectory-bearing neighbor (in
nearest-distance order) as guide for a single internal call, and when
no retrieved neighbor has a trajectory the loop body never runs and the
abnormal result is returned. -/
def NearestNeigborSolver._solve_action {α : Type} (s : NearestNeigborSolver α)
    (query_desc : Option Vec) : SolveAction α :=
  match query_desc with
  | none => SolveAction.internalCall none
  | some q =>
    let trajs := s._knn_trajectories q
    let trajs_without_none := trajs.filterMap id
    let count_none := trajs.length - trajs_without_none.length
    if (count_none : ℚ) ≥ s.infeasibility_threshold then SolveAction.abnormal
    else
      match trajs_without_none with
      | [] => SolveAction.abnormal
      | g :: _ => SolveAction.internalCall (some g)

/-- interface.py lines 275-292, NearestNeigborSolver._solve with the
internal solver abstracted as the function `internal`. -/
def NearestNeigborSolver._solve {α β : Type} (s : NearestNeigborSolver α)
    (internal : Option α → SolverResult β) (query_desc : Option Vec) : SolverResult β :=
  match s._solve_action query_desc with
  | SolveAction.abnormal => SolverResult.abnormal
  | SolveAction.internalCall g => internal g

/-- C10: with the default knn = 1 and no explicit threshold the
candidate threshold list `range(1, knn)` is empty, `np.argmin` is taken
over an empty tally list, and init fails instead of producing a
solver. -/
theorem C10_init_default_knn_fails {α : Type} (dataset : List (Vec × Option α)) :
    NearestNeigborSolver.init dataset 1 none = none := rfl

/-- C6 fails as stated: when every retrieved neighbor lacks a
trajectory but their count is still below the threshold (reachable with
an explicitly supplied threshold), the guide loop body never runs and
_solve returns the abnormal result without invoking the internal
solver, although the claim requires exactly one internal invocation in
every non-short-circuit case.  Here knn = 1, the single case has no
trajectory, the threshold is 2, and the none-count 1 is below it. -/
theorem C6_nn_solve_counterexample :
    NearestNeigborSolver._solve_action
      (⟨[[0]], [none], 1, 2⟩ : NearestNeigborSolver ℕ) (some [0]) = SolveAction.abnormal
    ∧ ¬ ((1 : ℚ) ≥ 2)
    ∧ ∀ g : Option ℕ,
        NearestNeigborSolver._solve_action
          (⟨[[0]], [none], 1, 2⟩ : NearestNeigborSolver ℕ) (some [0])
          ≠ SolveAction.internalCall g := by
  have h : NearestNeigborSolver._solve_action
      (⟨[[0]], [none], 1, 2⟩ : NearestNeigborSolver ℕ) (some [0]) = SolveAction.abnormal := by
    norm_num [NearestNeigborSolver._solve_action, NearestNeigborSolver._knn_trajectories,
      argsort, argsortAux, insertSortedIdx, sqdistList, sqdist, vsub, List.range_succ]
  refine ⟨h, by norm_num, ?_⟩
  intro g hg
  rw [h] at hg
  exact SolveAction.noConfusion hg

/-- C6 amended: with a query, if the none-count of the retrieved
neighbors reaches the threshold, the abnormal result is returned with
no internal call; otherwise, if some retrieved neighbor has a
trajectory, the internal solver is invoked exactly once with the first
such neighbor in nearest-distance order and its result is returned
unchanged; and if no retrieved neighbor has a trajectory the abnormal
result is returned with no internal call. -/
theorem C6_nn_solve_amended {α β : Type} (s : NearestNeigborSolver α)
    (internal : Option α → SolverResult β) (q : Vec) :
    ((((s._knn_trajectories q).length -
        ((s._knn_trajectories q).filterMap id).length : ℕ) : ℚ)
          ≥ s.infeasibility_threshold →
      s._solve_action (some q) = SolveAction.abnormal
      ∧ s._solve internal (some q) = SolverResult.abnormal)
    ∧ (¬ ((((s._knn_trajectories q).length -
        ((s._knn_trajectories q).filterMap id).length : ℕ) : ℚ)
          ≥ s.infeasibility_threshold) →
      (∀ g rest, (s._knn_trajectories q).filterMap id = g :: rest →
        s._solve_action (some q) = SolveAction.internalCall (some g)
        ∧ s._solve internal (some q) = internal (some g))
      ∧ ((s._knn_trajectories q).filterMap id = [] →
        s._solve_action (some q) = SolveAction.abnormal
        ∧ s._solve internal (some q) = SolverResult.abnormal)) := by
  have hsome : s._solve_action (some q) =
      (if ((((s._knn_trajectories q).length -
          ((s._knn_trajectories q).filterMap id).length : ℕ) : ℚ)
            ≥ s.infeasibility_threshold) then SolveAction.abnormal
       else
         match (s._knn_trajectories q).filterMap id with
         | [] => SolveAction.abnormal
         | g :: _ => SolveAction.internalCall (some g)) := rfl
  constructor
  · intro hge
    have ha : s._solve_action (some q) = SolveAction.abnormal := by
      rw [hsome, if_pos hge]
    exact ⟨ha, by unfold NearestNeigborSolver._solve; rw [ha]⟩
  · intro hlt
    constructor
    · intro g rest hfm
      have ha : s._solve_action (some q) = SolveAction.internalCall (some g) := by
        rw [hsome, if_neg hlt, hfm]
      exact ⟨ha, by unfold NearestNeigborSolver._solve; rw [ha]⟩
    · intro hfm
      have ha : s._solve_action (some q) = SolveAction.abnormal := by
        rw [hsome, if_neg hlt, hfm]
      exact ⟨ha, by unfold NearestNeigborSolver._solve; rw [ha]⟩

/-- Concrete instantiation of C6 (amended): with two stored cases and
knn = 2, a threshold of 1 short-circuits to the abnormal result, and a
threshold of 2 warm-starts one internal call with the nearest
trajectory-bearing neighbor. -/
theorem C6_nn_solve_amended_witness :
    NearestNeigborSolver._solve (⟨[[0], [1]], [some 5, none], 2, 1⟩ : NearestNeigborSolver ℕ)
      (fun _ => (⟨some 9⟩ : SolverResult ℕ)) (some [0]) = SolverResult.abnormal
    ∧ NearestNeigborSolver._solve (⟨[[0], [1]], [some 5, none], 2, 2⟩ : NearestNeigborSolver ℕ)
      (fun _ => (⟨some 9⟩ : SolverResult ℕ)) (some [0]) = ⟨some 9⟩ := by
  have htr : NearestNeigborSolver._knn_trajectories
      (⟨[[0], [1]], [some 5, none], 2, 1⟩ : NearestNeigborSolver ℕ) [0] = [some 5, none] := by
    norm_num [NearestNeigborSolver._knn_trajectories, argsort, argsortAux, insertSortedIdx,
      lexLe, sqdistList, sqdist, vsub, List.range_succ]
  have htr2 : NearestNeigborSolver._knn_trajectories
      (⟨[[0], [1]], [some 5, none], 2, 2⟩ : NearestNeigborSolver ℕ) [0] = [some 5, none] := by
    norm_num [NearestNeigborSolver._knn_trajectories, argsort, argsortAux, insertSortedIdx,
      lexLe, sqdistList, sqdist, vsub, List.range_succ]
  constructor
  · exact ((C6_nn_solve_amended
      (⟨[[0], [1]], [some 5, none], 2, 1⟩ : NearestNeigborSolver ℕ)
      (fun _ => (⟨some 9⟩ : SolverResult ℕ)) [0]).1
        (by rw [htr]; norm_num [List.filterMap_cons])).2
  · exact (((C6_nn_solve_amended
      (⟨[[0], [1]], [some 5, none], 2, 2⟩ : NearestNeigborSolver ℕ)
      (fun _ => (⟨some 9⟩ : SolverResult ℕ)) [0]).2
        (by rw [htr2]; norm_num [List.filterMap_cons])).1
      5 [] (by rw [htr2]; rfl)).2

theorem lexLe_iff (v : List ℚ) (i j : ℕ) :
    lexLe v i j = true ↔ (v.getD i 0 < v.getD j 0 ∨ (v.getD i 0 = v.getD j 0 ∧ i ≤ j)) := by
  simp [lexLe]

theorem lexLe_total (v : List ℚ) (i j : ℕ) : lexLe v i j = true ∨ lexLe v j i = true := by
  rcases lt_trichotomy (v.getD i 0) (v.getD j 0) with h | h | h
  · exact Or.inl ((lexLe_iff v i j).mpr (Or.inl h))
  · rcases Nat.le_total i j with hij | hij
    · exact Or.inl ((lexLe_iff v i j).mpr (Or.inr ⟨h, hij⟩))
    · exact Or.inr ((lexLe_iff v j i).mpr (Or.inr ⟨h.symm, hij⟩))
  · exact Or.inr ((lexLe_iff v j i).mpr (Or.inl h))

theorem lexLe_trans (v : List ℚ) (i j k : ℕ) (h1 : lexLe v i j = true)
    (h2 : lexLe v j k = true) : lexLe v i k = true := by
  rw [lexLe_iff] at h1 h2 ⊢
  rcases h1 with h1 | ⟨h1e, h1i⟩ <;> rcases h2 with h2 | ⟨h2e, h2i⟩
  · exact Or.inl (h1.trans h2)
  · exact Or.inl (h2e ▸ h1)
  · exact Or.inl (h1e ▸ h2)
  · exact Or.inr ⟨h1e.trans h2e, h1i.trans h2i⟩

theorem insertSortedIdx_perm (v : List ℚ) (i : ℕ) :
    ∀ l : List ℕ, List.Perm (insertSortedIdx v i l) (i :: l)
  | [] => List.Perm.refl _
  | j :: rest => by
    unfold insertSortedIdx
    by_cases h : lexLe v i j = true
    · rw [if_pos h]
    · rw [if_neg h]
      exact (List.Perm.cons j (insertSortedIdx_perm v i rest)).trans
        (List.Perm.swap i j rest)

theorem argsortAux_perm (v : List ℚ) :
    ∀ l : List ℕ, List.Perm (argsortAux v l) l
  | [] => List.Perm.refl _
  | i :: rest =>
    (insertSortedIdx_perm v i (argsortAux v rest)).trans
      (List.Perm.cons i (argsortAux_perm v rest))

theorem argsort_perm (v : List ℚ) : List.Perm (argsort v) (List.range v.length) :=
  argsortAux_perm v (List.range v.length)

theorem insertSortedIdx_pairwise (v : List ℚ) (i : ℕ) :
    ∀ l : List ℕ, List.Pairwise (fun a b => lexLe v a b = true) l →
      List.Pairwise (fun a b => lexLe v a b = true) (insertSortedIdx v i l)
  | [], _ => by simp [insertSortedIdx]
  | j :: rest, h => by
    obtain ⟨hj, hrest⟩ := List.pairwise_cons.mp h
    unfold insertSortedIdx
    by_cases hij : lexLe v i j = true
    · rw [if_pos hij]
      refine List.pairwise_cons.mpr ⟨?_, h⟩
      intro x hx
      rcases List.mem_cons.mp hx with hx | hx
      · exact hx ▸ hij
      · exact lexLe_trans v i j x hij (hj x hx)
    · rw [if_neg hij]
      refine List.pairwise_cons.mpr ⟨?_, insertSortedIdx_pairwise v i rest hrest⟩
      intro x hx
      have hx2 : x ∈ i :: rest := (insertSortedIdx_perm v i rest).mem_iff.mp hx
      rcases List.mem_cons.mp hx2 with hx3 | hx3
      · subst hx3
        rcases lexLe_total v x j with ht | ht
        · exact absurd ht hij
        · exact ht
      · exact hj x hx3

theorem argsortAux_pairwise (v : List ℚ) :
    ∀ l : List ℕ, List.Pairwise (fun a b => lexLe v a b = true) (argsortAux v l)
  | [] => List.Pairwise.nil
  | i :: rest => insertSortedIdx_pairwise v i (argsortAux v rest) (argsortAux_pairwise v rest)

theorem argsort_pairwise (v : List ℚ) :
    List.Pairwise (fun a b => lexLe v a b = true) (argsort v) :=
  argsortAux_pairwise v (List.range v.length)

/-- Non-negativity of the squared feature distance. -/
theorem sqdist_nonneg (a b : Vec) : 0 ≤ sqdist a b := by
  unfold sqdist
  induction vsub a b with
  | nil => simp
  | cons x l ih =>
    simp only [List.map_cons, List.sum_cons]
    exact add_nonneg (mul_self_nonneg x) ih

theorem sqdist_self (a : Vec) : sqdist a a = 0 := by
  unfold sqdist vsub
  induction a with
  | nil => simp
  | cons x l ih => simp [ih]

/-- When index `i` is the unique zero of a non-negative list, argsort
puts it first, and dropping the first sorted element is the same as
filtering out `i`. -/
theorem argsort_zero_head (v : List ℚ) (i : ℕ) (hi : i < v.length)
    (hzero : v.getD i 0 = 0)
    (hpos : ∀ j, j < v.length → j ≠ i → 0 < v.getD j 0) :
    ∃ t, argsort v = i :: t ∧ i ∉ t
      ∧ (argsort v).drop 1 = (argsort v).filter (fun j => decide (j ≠ i)) := by
  have hperm := argsort_perm v
  have himem : i ∈ argsort v := hperm.mem_iff.mpr (List.mem_range.mpr hi)
  obtain ⟨h, t, hht⟩ := List.exists_cons_of_ne_nil (List.ne_nil_of_mem himem)
  have hpair := argsort_pairwise v
  rw [hht] at hperm himem hpair
  obtain ⟨hhd, _⟩ := List.pairwise_cons.mp hpair
  have hhlt : h < v.length := by
    have : h ∈ List.range v.length := hperm.mem_iff.mp (by simp)
    exact List.mem_range.mp this
  have hhi : h = i := by
    by_contra hne
    have hit : i ∈ t := by
      rcases List.mem_cons.mp himem with hx | hx
      · exact absurd hx.symm hne
      · exact hx
    have hlex := hhd i hit
    rw [lexLe_iff, hzero] at hlex
    have hhp : 0 < v.getD h 0 := hpos h hhlt hne
    rcases hlex with hlex | ⟨hlex, _⟩
    · exact absurd hlex (not_lt.mpr (le_of_lt hhp))
    · exact absurd hlex (ne_of_gt hhp)
  subst hhi
  have hnodup : (h :: t).Nodup := hperm.nodup_iff.mpr (List.nodup_range v.length)
  have hnt : h ∉ t := (List.nodup_cons.mp hnodup).1
  refine ⟨t, hht, hnt, ?_⟩
  rw [hht]
  simp only [List.drop_one, List.tail_cons, List.filter_cons]
  rw [if_neg (by simp)]
  symm
  apply List.filter_eq_self.mpr
  intro a ha
  simp only [ne_eq, decide_eq_true_eq]
  intro hcon
  exact hnt (hcon ▸ ha)

/-- When all other cases are at strictly positive distance, the
code neighbor list (drop the first sorted index) equals the claim
neighbor list (exclude the case itself). -/
theorem looNeighborIdxs_eq_spec (descs : List Vec) (i knn : ℕ)
    (hi : i < descs.length)
    (hpos : ∀ j, j < descs.length → j ≠ i →
      0 < sqdist (descs.getD j []) (descs.getD i [])) :
    looNeighborIdxs descs i knn = specNeighborIdxs descs i knn := by
  have hlen : (sqdistList descs (descs.getD i [])).length = descs.length := by
    simp [sqdistList]
  have hgetD : ∀ j, j < descs.length →
      (sqdistList descs (descs.getD i [])).getD j 0 =
        sqdist (descs.getD j []) (descs.getD i []) := by
    intro j hj
    unfold sqdistList
    rw [List.getD_eq_getElem _ _
      (show j < (descs.map (fun v => sqdist v (descs.getD i []))).length by simpa using hj)]
    rw [List.getElem_map]
    rw [List.getD_eq_getElem descs [] hj]
  have hzero : (sqdistList descs (descs.getD i [])).getD i 0 = 0 := by
    rw [hgetD i hi]
    exact sqdist_self _
  obtain ⟨t, _, _, hdf⟩ := argsort_zero_head (sqdistList descs (descs.getD i [])) i
    (by rw [hlen]; exact hi) hzero
    (by
      intro j hj hne
      rw [hgetD j (by rwa [hlen] at hj)]
      exact hpos j (by rwa [hlen] at hj) hne)
  unfold looNeighborIdxs specNeighborIdxs
  rw [hdf]

/-- Under pairwise-distinct features the leave-one-out tally of the
code equals the mismatch count described by the claim. -/
theorem looError_eq_specMismatch {α : Type} (dataset : List (Vec × Option α)) (knn t : ℕ)
    (hdist : ∀ i j, i < dataset.length → j < dataset.length → i ≠ j →
      0 < sqdist ((dataset.map Prod.fst).getD j []) ((dataset.map Prod.fst).getD i [])) :
    looError dataset knn t = specMismatch dataset knn t := by
  unfold looError specMismatch
  congr 1
  apply List.filter_congr
  intro i hi
  have hi2 : i < dataset.length := List.mem_range.mp hi
  have hlen : (dataset.map Prod.fst).length = dataset.length := by simp
  rw [looNeighborIdxs_eq_spec (dataset.map Prod.fst) i knn (by rwa [hlen])
    (fun j hj hne => hdist i j hi2 (by rwa [hlen] at hj) (fun h => hne h.symm))]

theorem argminIdx_lt_length {α : Type} [LinearOrder α] :
    ∀ l : List α, l ≠ [] → argminIdx l < l.length
  | [], h => absurd rfl h
  | x :: rest, _ => by
    unfold argminIdx
    by_cases hr : rest = []
    · rw [if_pos hr]
      simp
    · rw [if_neg hr]
      by_cases hle : x ≤ rest.getD (argminIdx rest) x
      · rw [if_pos hle]
        simp
      · rw [if_neg hle]
        simpa using Nat.succ_lt_succ (argminIdx_lt_length rest hr)

theorem argminIdx_min {α : Type} [LinearOrder α] (d : α) :
    ∀ (l : List α) (j : ℕ), j < l.length → l.getD (argminIdx l) d ≤ l.getD j d
  | [], j, hj => by simp at hj
  | x :: rest, j, hj => by
    unfold argminIdx
    by_cases hr : rest = []
    · subst hr
      have hj0 : j = 0 := by simpa using hj
      subst hj0
      simp
    · rw [if_neg hr]
      have hlt := argminIdx_lt_length rest hr
      have hdd : rest.getD (argminIdx rest) x = rest.getD (argminIdx rest) d := by
        rw [List.getD_eq_getElem _ _ hlt, List.getD_eq_getElem _ _ hlt]
      by_cases hle : x ≤ rest.getD (argminIdx rest) x
      · rw [if_pos hle]
        cases j with
        | zero => simp
        | succ n =>
          have hn : n < rest.length := by simpa using hj
          calc (x :: rest).getD 0 d = x := by simp
            _ ≤ rest.getD (argminIdx rest) d := by rw [← hdd]; exact hle
            _ ≤ rest.getD n d := argminIdx_min d rest n hn
            _ = (x :: rest).getD (n + 1) d := by simp
      · rw [if_neg hle]
        cases j with
        | zero =>
          have hxlt : rest.getD (argminIdx rest) x < x := lt_of_not_le hle
          calc (x :: rest).getD (argminIdx rest + 1) d
              = rest.getD (argminIdx rest) d := by simp
            _ ≤ x := by rw [← hdd]; exact le_of_lt hxlt
            _ = (x :: rest).getD 0 d := by simp
        | succ n =>
          have hn : n < rest.length := by simpa using hj
          simpa using argminIdx_min d rest n hn

theorem argminIdx_first {α : Type} [LinearOrder α] (d : α) :
    ∀ (l : List α) (j : ℕ), j < argminIdx l → l.getD (argminIdx l) d < l.getD j d
  | [], j, hj => by simp [argminIdx] at hj
  | x :: rest, j, hj => by
    unfold argminIdx at hj ⊢
    by_cases hr : rest = []
    · rw [if_pos hr] at hj
      exact absurd hj (Nat.not_lt_zero j)
    · rw [if_neg hr] at hj ⊢
      have hlt := argminIdx_lt_length rest hr
      have hdd : rest.getD (argminIdx rest) x = rest.getD (argminIdx rest) d := by
        rw [List.getD_eq_getElem _ _ hlt, List.getD_eq_getElem _ _ hlt]
      by_cases hle : x ≤ rest.getD (argminIdx rest) x
      · rw [if_pos hle] at hj
        exact absurd hj (Nat.not_lt_zero j)
      · rw [if_neg hle] at hj ⊢
        have hxlt : rest.getD (argminIdx rest) x < x := lt_of_not_le hle
        cases j with
        | zero =>
          calc (x :: rest).getD (argminIdx rest + 1) d
              = rest.getD (argminIdx rest) d := by simp
            _ < x := by rw [← hdd]; exact hxlt
            _ = (x :: rest).getD 0 d := by simp
        | succ n =>
          have hn : n < argminIdx rest := by omega
          simpa using argminIdx_first d rest n hn

/-- C5: with at least one candidate threshold (knn at least 2) and
pairwise-distinct case features (so that dropping the first sorted
index really excludes the case itself), init with no explicit threshold
produces the solver whose calibrated threshold t lies in [1, knn),
minimizes the leave-one-out mismatch count of the claim over that
range, and is the smallest minimizer (ties to the smallest
threshold). -/
theorem C5_loo_threshold_calibration {α : Type} (dataset : List (Vec × Option α)) (knn : ℕ)
    (hknn : 2 ≤ knn)
    (hdist : ∀ i j, i < dataset.length → j < dataset.length → i ≠ j →
      0 < sqdist ((dataset.map Prod.fst).getD j []) ((dataset.map Prod.fst).getD i [])) :
    ∃ t : ℕ, NearestNeigborSolver.init dataset knn none =
        some ⟨dataset.map Prod.fst, dataset.map Prod.snd, knn, (t : ℚ)⟩
      ∧ 1 ≤ t ∧ t < knn
      ∧ (∀ u, 1 ≤ u → u < knn → specMismatch dataset knn t ≤ specMismatch dataset knn u)
      ∧ (∀ u, 1 ≤ u → u < t → specMismatch dataset knn t < specMismatch dataset knn u) := by
  have hTlen : (List.range' 1 (knn - 1)).length = knn - 1 := by simp
  have hTne : List.range' 1 (knn - 1) ≠ [] := by
    apply List.ne_nil_of_length_pos
    rw [hTlen]
    omega
  have hElen : ((List.range' 1 (knn - 1)).map (fun t => looError dataset knn t)).length
      = knn - 1 := by simp
  have hEne : (List.range' 1 (knn - 1)).map (fun t => looError dataset knn t) ≠ [] := by
    apply List.ne_nil_of_length_pos
    rw [hElen]
    omega
  have hk : argminIdx ((List.range' 1 (knn - 1)).map (fun t => looError dataset knn t))
      < knn - 1 := by
    have h0 := argminIdx_lt_length _ hEne
    rwa [hElen] at h0
  have hTget : ∀ m, m < knn - 1 → (List.range' 1 (knn - 1)).getD m 0 = 1 + m := by
    intro m hm
    rw [List.getD_eq_getElem _ _ (by rw [hTlen]; exact hm)]
    exact List.getElem_range'_1 m _
  have hEget : ∀ m, m < knn - 1 →
      ((List.range' 1 (knn - 1)).map (fun t => looError dataset knn t)).getD m 0
        = looError dataset knn (1 + m) := by
    intro m hm
    rw [List.getD_eq_getElem _ _ (by rw [hElen]; exact hm)]
    rw [List.getElem_map]
    congr 1
    rw [← hTget m hm, List.getD_eq_getElem _ _ (by rw [hTlen]; exact hm)]
  refine ⟨1 + argminIdx ((List.range' 1 (knn - 1)).map (fun t => looError dataset knn t)),
    ?_, by omega, by omega, ?_, ?_⟩
  · unfold NearestNeigborSolver.init calibrate
    simp only [if_neg hTne, Option.map_some]
    rw [hTget _ hk]
    rfl
  · intro u h1u huk
    have hmu : u - 1 < knn - 1 := by omega
    rw [← looError_eq_specMismatch dataset knn _ hdist,
      ← looError_eq_specMismatch dataset knn u hdist]
    have hmin := argminIdx_min 0
      ((List.range' 1 (knn - 1)).map (fun t => looError dataset knn t)) (u - 1)
      (by rw [hElen]; exact hmu)
    rw [hEget _ hk, hEget _ hmu] at hmin
    have hu : 1 + (u - 1) = u := by omega
    rwa [hu] at hmin
  · intro u h1u hut
    have hmu : u - 1 < knn - 1 := by omega
    rw [← looError_eq_specMismatch dataset knn _ hdist,
      ← looError_eq_specMismatch dataset knn u hdist]
    have hfirst := argminIdx_first 0
      ((List.range' 1 (knn - 1)).map (fun t => looError dataset knn t)) (u - 1)
      (by omega)
    rw [hEget _ hk, hEget _ hmu] at hfirst
    have hu : 1 + (u - 1) = u := by omega
    rwa [hu] at hfirst

/-- Concrete instantiation of C5 on a two-case base with knn = 2: the
calibrated threshold exists, lies in [1, 2) and minimizes the mismatch
count. -/
theorem C5_loo_threshold_calibration_witness :
    ∃ t : ℕ, NearestNeigborSolver.init [([0], some 0), ([1], (none : Option ℕ))] 2 none =
        some ⟨[[0], [1]], [some 0, none], 2, (t : ℚ)⟩
      ∧ 1 ≤ t ∧ t < 2
      ∧ (∀ u, 1 ≤ u → u < 2 →
          specMismatch [([0], some 0), ([1], (none : Option ℕ))] 2 t
            ≤ specMismatch [([0], some 0), ([1], (none : Option ℕ))] 2 u)
      ∧ (∀ u, 1 ≤ u → u < t →
          specMismatch [([0], some 0), ([1], (none : Option ℕ))] 2 t
            < specMismatch [([0], some 0), ([1], (none : Option ℕ))] 2 u) := by
  have h := C5_loo_threshold_calibration [([0], some 0), ([1], (none : Option ℕ))] 2
    (by norm_num)
    (by
      intro i j hi hj hne
      norm_num at hi hj
      interval_cases i <;> interval_cases j <;>
        first
        | exact absurd rfl hne
        | norm_num [sqdist, vsub])
  simpa using h

end Skmp
